import Mathlib

/-!
Verification development for the rpget repository: a shallow embedding of
the streaming tar extractor (pkg/extract/tar.go), the multifile manifest
parser (cmd/multifile/manifest.go), the SRV cache-host ordering
(pkg/cli/common.go), and spec-modelled fragments of the download engine
whose implementation files are not part of the source tree.

Paths are modelled as strings over the Unix separator, and the lexical
path functions (Clean, Join, Abs, Dir) follow Go's path/filepath
implementations restricted to Unix semantics, operating on the character
list of the string.
-/

namespace RPGet

/-- Split a character list on a separator character; mirrors splitting a
path on the slash character.  Always returns a non-empty list of groups. -/
def splitOnChar (c : Char) : List Char → List (List Char)
  | [] => [[]]
  | x :: xs =>
    match splitOnChar c xs with
    | [] => [[]]
    | g :: gs => if x = c then [] :: g :: gs else (x :: g) :: gs

/-- Resolve double-dot components against the accumulated output, as the
backtracking phase of filepath.Clean.  Processes components left to
right keeping a stack of output components. -/
def resolveDots (rooted : Bool) : List (List Char) → List (List Char) → List (List Char)
  | out, [] => out.reverse
  | out, comp :: rest =>
    if comp = ['.', '.'] then
      match out with
      | [] => if rooted then resolveDots rooted [] rest
              else resolveDots rooted [['.', '.']] rest
      | top :: outRest =>
        if top = ['.', '.'] then resolveDots rooted (comp :: out) rest
        else resolveDots rooted outRest rest
    else
      resolveDots rooted (comp :: out) rest

/-- Go filepath.Clean on Unix, over a character list. -/
def cleanChars (cs : List Char) : List Char :=
  let rooted := match cs with
    | '/' :: _ => true
    | _ => false
  let comps := (splitOnChar '/' cs).filter (fun c => ¬(c = [] ∨ c = ['.']))
  let resolved := resolveDots rooted [] comps
  let body := (resolved.intersperse ['/']).flatten
  if rooted then '/' :: body
  else if body = [] then ['.']
  else body

/-- Go filepath.Clean on Unix. -/
def goClean (s : String) : String := ⟨cleanChars s.data⟩

/-- Go filepath.Join of two elements on Unix: empty elements are dropped,
the rest are joined with a slash and cleaned.  Joining two empty strings
yields the empty string, as in Go. -/
def goJoin (a b : String) : String :=
  if a = "" ∧ b = "" then ""
  else if a = "" then goClean b
  else if b = "" then goClean a
  else goClean ⟨a.data ++ '/' :: b.data⟩

/-- Whether a path is absolute on Unix (Go filepath.IsAbs). -/
def goIsAbs (s : String) : Bool :=
  match s.data with
  | '/' :: _ => true
  | _ => false

/-- Go filepath.Abs on Unix, with the working directory passed explicitly:
an absolute path is cleaned, a relative one is joined to the working
directory. -/
def goAbs (cwd s : String) : String :=
  if goIsAbs s then goClean s else goJoin cwd s

/-- Position just after the final slash of a character list, or none when
the list has no slash; used by the Dir model. -/
def afterLastSlash : List Char → Option Nat
  | [] => none
  | c :: cs =>
    match afterLastSlash cs with
    | some n => some (n + 1)
    | none => if c = '/' then some 1 else none

/-- Go filepath.Dir on Unix: everything before the final path element,
cleaned; a path with no slash has directory dot. -/
def goDir (s : String) : String :=
  match afterLastSlash s.data with
  | some n => goClean ⟨s.data.take n⟩
  | none => "."

/-- Go strings.HasPrefix. -/
def goHasPrefix (s pre : String) : Bool := pre.data.isPrefixOf s.data

/-- Whether a resolved absolute path lies inside a directory: either it is
the directory itself or it extends the directory past a separator.  This
is the reading of the spec sentence that no filesystem entry is ever
created outside abs of the destination directory. -/
def underDir (dir p : String) : Bool :=
  p = dir || goHasPrefix p ⟨dir.data ++ ['/']⟩

/-! ## Tar extractor model (pkg/extract/tar.go)

The extractor is modelled over an already-parsed stream: a list of tar
headers with their bodies, followed by the padding bytes that remain on
the raw reader after the tar EOF marker.  Decompression sniffing is not
modelled (the padding is read from the raw reader in the source either
way).  Filesystem effects are modelled as a trace of operations in the
order the source issues them; OS-level failures are out of scope. -/

/-- Tar entry type flags handled by TarFile; the source switches on
tar.TypeXGlobalHeader, TypeDir, TypeReg, TypeSymlink, TypeLink and
rejects everything else. -/
inductive TypeFlag where
  | reg
  | dir
  | symlink
  | hardlink
  | xGlobalHeader
  | unsupported
deriving DecidableEq, Repr

/-- A parsed tar header together with the file body for regular files.
The mode is the raw numeric header mode (tar stores the Unix permission
and special bits in the low twelve bits). -/
structure Header where
  name : String
  typeflag : TypeFlag
  mode : Nat
  linkname : String
  body : List UInt8
deriving DecidableEq, Repr

/-- Deferred link record, mirroring the link struct of the source. -/
structure DeferredLink where
  linkType : TypeFlag
  oldName : String
  newName : String
deriving DecidableEq, Repr

/-- Filesystem operations issued by the extractor, in program order. -/
inductive FSOp where
  | mkdirAll (path : String) (mode : Nat)
  | createFile (path : String) (mode : Nat) (trunc : Bool) (content : List UInt8)
  | remove (path : String)
  | hardlink (oldpath newpath : String)
  | symlink (oldpath newpath : String)
deriving DecidableEq, Repr

/-- Errors TarFile can return in the modelled fragment. -/
inductive TarErr where
  | emptyHeaderName
  | zipSlip (target destAbs : String)
  | unsupportedType (name : String)
  | unsupportedLinkType
  | nonNullPadding (b : UInt8)
deriving DecidableEq, Repr

/-- Go os.FileMode bit positions for the setuid, setgid and sticky flags:
ModeSetuid is bit 23, ModeSetgid bit 22, ModeSticky bit 20. -/
def goModeSpecialMask : Nat := 2 ^ 23 + 2 ^ 22 + 2 ^ 20

/-- cleanFileMode from the source: clear os.ModeSetuid, os.ModeSetgid and
os.ModeSticky from an os.FileMode value (a 32-bit quantity). -/
def cleanFileMode (mode : Nat) : Nat :=
  mode &&& (0xFFFFFFFF ^^^ goModeSpecialMask)

/-- Conversion os.FileMode applied to the int64 header mode: a plain
integer cast truncating to 32 bits. -/
def fileModeOfHeaderMode (m : Nat) : Nat := m % 2 ^ 32

/-- Mode cleaning as the specification words it: mask the setuid (0o4000),
setgid (0o2000) and sticky (0o1000) bits out of the header's mode.  This
definition follows the spec sentence and is only used to compare against
the source's cleanFileMode. -/
def specCleanHeaderMode (m : Nat) : Nat :=
  m &&& (0xFFFFFFFF ^^^ 0o7000)

/-- guardAgainstZipSlip from the source: an empty name is rejected, then
the joined target and the destination directory are made absolute and
compared with strings.HasPrefix with no separator appended. -/
def guardAgainstZipSlip (cwd : String) (name : String) (destDir : String) :
    Except TarErr Unit :=
  if name = "" then .error .emptyHeaderName
  else
    let target := goAbs cwd (goJoin destDir name)
    let destAbs := goAbs cwd destDir
    if goHasPrefix target destAbs then .ok ()
    else .error (.zipSlip target destAbs)

/-- Process the tar entry loop of TarFile.  Returns the filesystem
operations issued in order, the deferred links collected in encounter
order, and the error that aborted the loop, if any.  Operations issued
before an abort are kept, since the source runs MkdirAll on the target's
parent directory before the zip-slip guard. -/
def processEntries (cwd destDir : String) (overwrite : Bool) :
    List Header → List FSOp × List DeferredLink × Option TarErr
  | [] => ([], [], none)
  | h :: rest =>
    let target := goJoin destDir h.name
    let pre := FSOp.mkdirAll (goDir target) 0o755
    match guardAgainstZipSlip cwd h.name destDir with
    | .error e => ([pre], [], some e)
    | .ok _ =>
      match h.typeflag with
      | .xGlobalHeader =>
        let r := processEntries cwd destDir overwrite rest
        (pre :: r.1, r.2.1, r.2.2)
      | .dir =>
        let r := processEntries cwd destDir overwrite rest
        (pre :: FSOp.mkdirAll target (cleanFileMode (fileModeOfHeaderMode h.mode)) :: r.1,
         r.2.1, r.2.2)
      | .reg =>
        let r := processEntries cwd destDir overwrite rest
        (pre :: FSOp.createFile target (cleanFileMode (fileModeOfHeaderMode h.mode))
            overwrite h.body :: r.1,
         r.2.1, r.2.2)
      | .symlink =>
        let r := processEntries cwd destDir overwrite rest
        (pre :: r.1, ⟨.symlink, h.linkname, target⟩ :: r.2.1, r.2.2)
      | .hardlink =>
        let r := processEntries cwd destDir overwrite rest
        (pre :: r.1, ⟨.hardlink, h.linkname, target⟩ :: r.2.1, r.2.2)
      | .unsupported => ([pre], [], some (.unsupportedType h.name))

/-- createHardLink from the source: under overwrite, remove the existing
entry first, then link oldName to newName. -/
def createHardLinkOps (oldName newName : String) (overwrite : Bool) : List FSOp :=
  (if overwrite then [FSOp.remove newName] else []) ++ [FSOp.hardlink oldName newName]

/-- createSymlink from the source: under overwrite, remove the existing
entry first, then create the symlink with oldName verbatim as target. -/
def createSymlinkOps (oldName newName : String) (overwrite : Bool) : List FSOp :=
  (if overwrite then [FSOp.remove newName] else []) ++ [FSOp.symlink oldName newName]

/-- createLinks from the source: walk the deferred queue in order; for a
hardlink the old path is the destination directory joined with the
link's old name, for a symlink the old name is used verbatim. -/
def createLinksOps (destDir : String) (overwrite : Bool) :
    List DeferredLink → Except TarErr (List FSOp)
  | [] => .ok []
  | l :: ls =>
    let pre := FSOp.mkdirAll (goDir l.newName) 0o755
    match l.linkType with
    | .hardlink =>
      match createLinksOps destDir overwrite ls with
      | .error e => .error e
      | .ok rest =>
        .ok (pre :: (createHardLinkOps (goJoin destDir l.oldName) l.newName overwrite ++ rest))
    | .symlink =>
      match createLinksOps destDir overwrite ls with
      | .error e => .error e
      | .ok rest =>
        .ok (pre :: (createSymlinkOps l.oldName l.newName overwrite ++ rest))
    | _ => .error .unsupportedLinkType

/-- Padding verification from TarFile: every byte remaining on the raw
reader after the tar EOF marker must be a null byte; the first non-null
byte aborts extraction. -/
def checkPadding : List UInt8 → Except TarErr Unit
  | [] => .ok ()
  | b :: bs => if b ≠ 0 then .error (.nonNullPadding b) else checkPadding bs

/-- TarFile from the source over a parsed stream: run the entry loop,
then create the deferred links, then read the rest of the raw reader and
check that it is all null padding.  The result is the ordered trace of
filesystem operations. -/
def tarFile (cwd destDir : String) (overwrite : Bool) (entries : List Header)
    (padding : List UInt8) : Except TarErr (List FSOp) :=
  match processEntries cwd destDir overwrite entries with
  | (_, _, some e) => .error e
  | (ops, links, none) =>
    match createLinksOps destDir overwrite links with
    | .error e => .error e
    | .ok lops =>
      match checkPadding padding with
      | .error e => .error e
      | .ok _ => .ok (ops ++ lops)

/-- Whether a tar entry is deferred as a link. -/
def isLinkEntry (h : Header) : Bool :=
  match h.typeflag with
  | .symlink => true
  | .hardlink => true
  | _ => false

/-- The deferred link queue TarFile collects, in encounter order. -/
def deferredLinks (destDir : String) (entries : List Header) : List DeferredLink :=
  (entries.filter isLinkEntry).map
    (fun h => ⟨h.typeflag, h.linkname, goJoin destDir h.name⟩)

/-- Whether a filesystem operation creates a link. -/
def isLinkCreation : FSOp → Bool
  | .hardlink _ _ => true
  | .symlink _ _ => true
  | _ => false

/-- The creation operation createLinks issues for a deferred link. -/
def creationOf (destDir : String) (l : DeferredLink) : FSOp :=
  match l.linkType with
  | .hardlink => .hardlink (goJoin destDir l.oldName) l.newName
  | _ => .symlink l.oldName l.newName

/-- Name of the null consumer (config.ConsumerNull); its exact spelling
is irrelevant to the model, only the comparison against it matters. -/
def consumerNull : String := "null"

/-- A manifest entry, i.e. one URL and destination pair. -/
structure ManifestEntry where
  url : String
  dest : String
deriving DecidableEq, Repr

/-- Errors of the manifest parser model. -/
inductive ManifestErr where
  | invalidLine (line : String)
  | invalidURL (url : String)
  | duplicateDestination (dest seenURL url : String)
  | destinationExists (dest : String)
deriving DecidableEq, Repr

/-- Go strings.Fields: split on runs of whitespace. -/
def goFields (s : String) : List String :=
  ((splitOnChar ' ' (s.data.map fun c => if c = '\t' ∨ c = '\n' ∨ c = '\r' then ' ' else c)).filter
      (fun g => g ≠ [])).map (fun g => ⟨g⟩)

/-- parseLine from the source: a line must split into exactly two
whitespace-separated fields, the URL and the destination. -/
def parseLine (line : String) : Except ManifestErr (String × String) :=
  match goFields line with
  | [u, d] => .ok (u, d)
  | _ => .error (.invalidLine line)

/-- checkSeenDestinations from the source: a destination seen with a
different URL is an error; seen with the same URL it is the duplicate
marker (the caller warns and skips). -/
inductive SeenResult where
  | fresh
  | dupe
  | conflict (seenURL : String)
deriving DecidableEq, Repr

/-- Result of looking up a destination among the seen ones. -/
def checkSeenDestinations (seen : List (String × String)) (dest url : String) : SeenResult :=
  match seen.lookup dest with
  | some seenURL => if seenURL = url then .dupe else .conflict seenURL
  | none => .fresh

/-- EnsureDestinationNotExist from pkg/cli: error when force is unset and
the destination exists. -/
def ensureDestinationNotExist (force : Bool) (exists_ : String → Bool) (dest : String) :
    Except ManifestErr Unit :=
  if ¬force ∧ exists_ dest then .error (.destinationExists dest) else .ok ()

/-- Go strings.TrimSpace, restricted to the common ASCII whitespace. -/
def goTrimSpace (s : String) : String :=
  let ws : Char → Bool := fun c => c = ' ' ∨ c = '\t' ∨ c = '\n' ∨ c = '\r'
  ⟨((s.data.dropWhile ws).reverse.dropWhile ws).reverse⟩

/-- The parseManifest loop from the source.  Each line is trimmed; blank
lines are skipped; the line is split; the URL must parse; when the
configured consumer is not the null consumer the destination is checked
against the seen map (warning and skipping exact duplicates, aborting on
a conflicting destination) and against the filesystem; finally the entry
is appended. -/
def parseManifestLoop (consumer : String) (force : Bool) (validURL exists_ : String → Bool) :
    List String → List (String × String) → List ManifestEntry →
    Except ManifestErr (List ManifestEntry)
  | [], _, acc => .ok acc
  | line :: rest, seen, acc =>
    let t := goTrimSpace line
    if t = "" then parseManifestLoop consumer force validURL exists_ rest seen acc
    else
      match parseLine t with
      | .error e => .error e
      | .ok (url, dest) =>
        if ¬validURL url then .error (.invalidURL url)
        else if consumer ≠ consumerNull then
          match checkSeenDestinations seen dest url with
          | .dupe => parseManifestLoop consumer force validURL exists_ rest seen acc
          | .conflict seenURL => .error (.duplicateDestination dest seenURL url)
          | .fresh =>
            match ensureDestinationNotExist force exists_ dest with
            | .error e => .error e
            | .ok _ =>
              parseManifestLoop consumer force validURL exists_ rest
                ((dest, url) :: seen) (acc ++ [⟨url, dest⟩])
        else parseManifestLoop consumer force validURL exists_ rest seen (acc ++ [⟨url, dest⟩])

/-- parseManifest from the source, over the manifest's lines. -/
def parseManifest (consumer : String) (force : Bool) (validURL exists_ : String → Bool)
    (lines : List String) : Except ManifestErr (List ManifestEntry) :=
  parseManifestLoop consumer force validURL exists_ lines [] []

/-- Character class `[a-z0-9-]` of hostnameIndexRegexp. -/
def isHostChar (c : Char) : Bool :=
  (('a' ≤ c) && (c ≤ 'z')) || (('0' ≤ c) && (c ≤ '9')) || (c = '-')

/-- Character class `[0-9]`. -/
def isDigitChar (c : Char) : Bool :=
  ('0' ≤ c) && (c ≤ '9')

/-- Match the tail `-([0-9]+)[.]` of hostnameIndexRegexp at the current
position, returning the captured digit run. -/
def matchDashDigitsDot (cs : List Char) : Option (List Char) :=
  match cs with
  | '-' :: rest =>
    let ds := rest.takeWhile isDigitChar
    if ds.isEmpty then none
    else
      match rest.dropWhile isDigitChar with
      | '.' :: _ => some ds
      | _ => none
  | _ => none

/-- Backtracking search of `^[a-z0-9-]*-([0-9]+)[.]`: the greedy star
prefers consuming the head character, falling back to matching the
dash-digits-dot tail here.  Mirrors Go regexp's leftmost-first submatch
semantics for hostnameIndexRegexp. -/
def findLastDashMatch : List Char → Option (List Char)
  | [] => none
  | c :: rest =>
    if isHostChar c then
      match findLastDashMatch rest with
      | some ds => some ds
      | none => matchDashDigitsDot (c :: rest)
    else matchDashDigitsDot (c :: rest)

/-- Decimal value of a digit run. -/
def digitsToNat (ds : List Char) : Nat :=
  ds.foldl (fun n c => n * 10 + (c.toNat - 48)) 0

/-- strconv.Atoi on the captured group (a nonempty unsigned digit run):
its decimal value, or ErrRange when the value exceeds the 64-bit int
maximum 2^63 - 1. -/
def goAtoi (ds : List Char) : Except String Nat :=
  if digitsToNat ds ≤ 9223372036854775807 then .ok (digitsToNat ds)
  else .error "value out of range"

/-- cacheIndexFor from the source: parse the numeric index out of a SRV
target hostname via the regexp capture and strconv.Atoi, or fail. -/
def cacheIndexFor (hostname : String) : Except String Nat :=
  match findLastDashMatch hostname.data with
  | some ds => goAtoi ds
  | none => .error hostname

/-- A DNS SRV record as used by orderCacheHosts: target hostname and port. -/
structure SRV where
  target : String
  port : Nat
deriving DecidableEq, Repr

/-- strings.TrimSuffix(target, ".") over the character list. -/
def trimDotSuffix (s : String) : String :=
  if s.data.getLast? = some '.' then ⟨s.data.dropLast⟩ else s

/-- The hostname string placed into the output slice: trailing dot
stripped, `:port` appended when the port is not 80. -/
def srvHostname (srv : SRV) : String :=
  let hostname := trimDotSuffix srv.target
  if srv.port ≠ 80 then hostname ++ ":" ++ toString srv.port else hostname

/-- First loop of orderCacheHosts: fold the highest cache index,
propagating the first parse error. -/
def highestIndexLoop : List SRV → Nat → Except String Nat
  | [], hi => .ok hi
  | srv :: rest, hi =>
    match cacheIndexFor srv.target with
    | .error e => .error e
    | .ok ci => highestIndexLoop rest (if ci > hi then ci else hi)

/-- Second loop of orderCacheHosts: write each hostname at its cache
index (last writer wins), propagating the first parse error. -/
def fillLoop : List SRV → List String → Except String (List String)
  | [], out => .ok out
  | srv :: rest, out =>
    match cacheIndexFor srv.target with
    | .error e => .error e
    | .ok ci => fillLoop rest (out.set ci (srvHostname srv))

/-- orderCacheHosts from the source. -/
def orderCacheHosts (srvs : List SRV) : Except String (List String) :=
  match highestIndexLoop srvs 0 with
  | .error e => .error e
  | .ok hi => fillLoop srvs (List.replicate (hi + 1) "")

/-- cacheIndexFor succeeded. -/
def cacheIndexOk (srv : SRV) : Bool :=
  match cacheIndexFor srv.target with
  | .ok _ => true
  | .error _ => false

/-- The parsed cache index, defaulting to 0 when parsing failed. -/
def cacheIndexOf (srv : SRV) : Nat :=
  match cacheIndexFor srv.target with
  | .ok ci => ci
  | .error _ => 0

/-- Modelled from the spec: ceiling division used for chunk and slice
counts (`chunk_count = ceil(size / chunk_size)`). -/
def ceilDiv (a b : Nat) : Nat := (a + b - 1) / b

/-- Modelled from the spec: chunk i of buffer mode covers bytes
`[i*chunk_size, min((i+1)*chunk_size, size))`; this is its buffer over
the concrete object data. -/
def chunkBuffers (data : List Nat) (chunkSize : Nat) : List (List Nat) :=
  (List.range (ceilDiv data.length chunkSize)).map
    (fun i => (data.drop (i * chunkSize)).take chunkSize)

/-- Modelled from the spec: the ordered reader of the chunked engine
yields the chunk buffers in increasing index order. -/
def bufferModeFetch (data : List Nat) (chunkSize : Nat) : List Nat :=
  (chunkBuffers data chunkSize).flatten

/-- Modelled from the spec: the ordered starts of the chunk plan. -/
def chunkStarts (size chunkSize : Nat) : List Nat :=
  (List.range (ceilDiv size chunkSize)).map (· * chunkSize)

/-- Modelled from the spec: CH mode partitions the object into slices of
`slice_size`, fetches each slice through the chunked engine with
effective chunk size `min(chunk_size, slice_size)`, and concatenates the
slice readers in order. -/
def chModeFetch (data : List Nat) (sliceSize chunkSize : Nat) : List Nat :=
  ((List.range (ceilDiv data.length sliceSize)).map
    (fun s => bufferModeFetch ((data.drop (s * sliceSize)).take sliceSize)
      (min chunkSize sliceSize))).flatten

/-- Modelled from the spec: 64-bit FNV-1 over a byte list, the hash the
reference vectors were generated against, with arithmetic mod 2^64. -/
def fnv1 (bytes : List Nat) : Nat :=
  bytes.foldl (fun h b => (h * 0x100000001b3 % 2 ^ 64) ^^^ b) 0xcbf29ce484222325

/-- Little-endian 8-byte encoding of a 64-bit value. -/
def le64 (x : Nat) : List Nat :=
  (List.range 8).map (fun i => x / 256 ^ i % 256)

/-- Byte sequence of an ASCII string. -/
def strBytes (s : String) : List Nat :=
  s.data.map Char.toNat

/-- Modelled from the spec: the (key, value) pair combination of the
struct hash — FNV-1 of the two concatenated little-endian sub-hashes. -/
def hashOrdered (a b : Nat) : Nat := fnv1 (le64 a ++ le64 b)

/-- Modelled from the spec: the per-field finalization of the struct
hash — FNV-1 of the little-endian running hash. -/
def hashFinish (a : Nat) : Nat := fnv1 (le64 a)

/-- Modelled from the spec: the cache key hash of `{URL, Slice}` with
zero-valued fields skipped, so the Slice field participates only for a
nonzero slice index. -/
def cacheKeyHash (url : String) (slice : Nat) : Nat :=
  let h0 := hashFinish ((fnv1 (strBytes "CacheKey")) ^^^
    hashOrdered (fnv1 (strBytes "URL")) (fnv1 (strBytes url)))
  if slice = 0 then h0
  else hashFinish (h0 ^^^ hashOrdered (fnv1 (strBytes "Slice")) (fnv1 (le64 slice)))

/-- One multiplicative step of the jump consistent hash key stream. -/
def jumpStep (key : Nat) : Nat := (key * 2862933555777941757 + 1) % 2 ^ 64

/-- Modelled from the spec: the Lamping–Veach jump consistent hash loop
(`while j < buckets: b := j; key := key*K+1; j := (b+1)*2^31/((key>>33)+1)`),
with fuel covering the strictly increasing j. -/
def jumpHashGo (buckets : Nat) : Nat → Nat → Nat → Int → Int
  | 0, _, _, b => b
  | fuel + 1, key, j, b =>
    if j < buckets then
      let key' := jumpStep key
      let j' := ((j + 1) * 2 ^ 31) / (key' / 2 ^ 33 + 1)
      jumpHashGo buckets fuel key' j' (Int.ofNat j)
    else b

/-- Modelled from the spec: jump consistent hash of a key over
`buckets` buckets. -/
def jumpHash (key buckets : Nat) : Int :=
  jumpHashGo buckets (buckets + 1) key 0 (-1)

/-- Modelled from the spec: byte i of the reference scenario is served
by the host assigned to slice `i / slice_size` of the URL over M hosts. -/
def chHostVector (url : String) (sliceSize objLen buckets : Nat) : List Nat :=
  (List.range objLen).map
    (fun i => (jumpHash (cacheKeyHash url (i / sliceSize)) buckets).toNat)

/-- Digit values of a reference vector string. -/
def digitsOfString (s : String) : List Nat :=
  s.data.map (fun c => c.toNat - 48)

/-- Modelled from the spec: the retriable status class
`{408, 425, 429} ∪ 5xx`. -/
def retriableStatus (s : Nat) : Bool :=
  (s = 408 : Bool) || (s = 425 : Bool) || (s = 429 : Bool)
    || ((500 ≤ s : Bool) && (s ≤ 599 : Bool))

/-- Calls observable from the CH dispatcher during the file-level probe:
the probe itself, a whole-URL delegation to the fallback strategy's
Fetch, or a chunk re-issue through the fallback's DoRequest. -/
inductive CHOp where
  | probe (host : String)
  | fallbackFetch (url : String)
  | fallbackDoRequest (url : String)
deriving DecidableEq, Repr

/-- The op is a whole-URL fallback Fetch. -/
def CHOp.isFallbackFetch : CHOp → Bool
  | .fallbackFetch _ => true
  | _ => false

/-- The op is a fallback DoRequest. -/
def CHOp.isFallbackDoRequest : CHOp → Bool
  | .fallbackDoRequest _ => true
  | _ => false

/-- Modelled from the spec: the file-level decision of the CH dispatcher
on the initial probe of the first assigned cache host — success keeps CH
mode, a retriable/5xx status abandons CH and delegates the whole URL to
the fallback strategy's Fetch, anything else surfaces
ErrUnexpectedHTTPStatus without invoking the fallback. -/
def chFileProbe (probeStatus : Nat) (url cacheHost : String) :
    List CHOp × Except String Unit :=
  if (probeStatus = 200 : Bool) || (probeStatus = 206 : Bool) then
    ([.probe cacheHost], .ok ())
  else if retriableStatus probeStatus then
    ([.probe cacheHost, .fallbackFetch url], .ok ())
  else
    ([.probe cacheHost], .error "ErrUnexpectedHTTPStatus")

lemma checkPadding_ok_all_null (p : List UInt8) (h : checkPadding p = .ok ()) :
    p.all (· == 0) = true := by
  induction p with
  | nil => rfl
  | cons b bs ih =>
    rw [checkPadding] at h
    by_cases hb : b = 0
    · subst hb
      simp only [ne_eq, not_true_eq_false, if_neg, reduceIte] at h
      simpa using ih h
    · simp [hb] at h

lemma processEntries_none (cwd destDir : String) (overwrite : Bool)
    (entries : List Header) (ops : List FSOp) (links : List DeferredLink)
    (h : processEntries cwd destDir overwrite entries = (ops, links, none)) :
    links = deferredLinks destDir entries ∧ ∀ op ∈ ops, isLinkCreation op = false := by
  induction entries generalizing ops links with
  | nil =>
    simp only [processEntries, Prod.mk.injEq] at h
    obtain ⟨rfl, rfl, -⟩ := h
    exact ⟨rfl, by simp⟩
  | cons e rest ih =>
    rcases hr : processEntries cwd destDir overwrite rest with ⟨ops', links', err'⟩
    cases hg : guardAgainstZipSlip cwd e.name destDir with
    | error err =>
      simp only [processEntries, hg, Prod.mk.injEq] at h
      exact absurd h.2.2 (by simp)
    | ok u =>
      cases htf : e.typeflag <;>
        simp only [processEntries, hg, htf, hr, Prod.mk.injEq] at h
      case unsupported => exact absurd h.2.2 (by simp)
      all_goals obtain ⟨h1, h2, h3⟩ := h
      all_goals obtain rfl := h3.symm
      all_goals obtain ⟨hl, ho⟩ := ih _ _ hr
      all_goals
        refine ⟨by rw [← h2]; simp [hl, deferredLinks, isLinkEntry, htf], ?_⟩
        intro op hop
        rw [← h1] at hop
        rcases List.mem_cons.mp hop with rfl | hop
        · rfl
        · first
          | exact ho _ hop
          | (rcases List.mem_cons.mp hop with rfl | hop
             · rfl
             · exact ho _ hop)

lemma mem_overwrite_remove {b : Bool} {m : String} {op : FSOp}
    (h : op ∈ (if b then [FSOp.remove m] else [])) : op = FSOp.remove m := by
  cases b <;> simp_all

lemma createLinksOps_hardlink_mem (destDir : String) (overwrite : Bool)
    (links : List DeferredLink) (lops : List FSOp)
    (h : createLinksOps destDir overwrite links = .ok lops)
    (old new : String) (hmem : FSOp.hardlink old new ∈ lops) :
    ∃ l ∈ links, l.linkType = .hardlink ∧ old = goJoin destDir l.oldName ∧ new = l.newName := by
  induction links generalizing lops with
  | nil =>
    simp only [createLinksOps, Except.ok.injEq] at h
    subst h; cases hmem
  | cons l ls ih =>
    cases hlt : l.linkType <;> simp only [createLinksOps, hlt] at h
    case reg | dir | xGlobalHeader | unsupported => cases h
    case hardlink =>
      rcases hrec : createLinksOps destDir overwrite ls with e | rest <;> rw [hrec] at h
      · cases h
      obtain rfl := (Except.ok.injEq ..).mp h
      rcases List.mem_cons.mp hmem with heq | hmem'
      · cases heq
      rcases List.mem_append.mp hmem' with hin | hin
      · rcases List.mem_append.mp hin with hrm | hcr
        · cases mem_overwrite_remove hrm
        · obtain ⟨rfl, rfl⟩ := (FSOp.hardlink.injEq ..).mp (List.mem_singleton.mp hcr).symm
          exact ⟨l, List.mem_cons_self .., hlt, rfl, rfl⟩
      · exact (ih rest hrec hin).imp fun x hx => ⟨.tail _ hx.1, hx.2⟩
    case symlink =>
      rcases hrec : createLinksOps destDir overwrite ls with e | rest <;> rw [hrec] at h
      · cases h
      obtain rfl := (Except.ok.injEq ..).mp h
      rcases List.mem_cons.mp hmem with heq | hmem'
      · cases heq
      rcases List.mem_append.mp hmem' with hin | hin
      · rcases List.mem_append.mp hin with hrm | hcr
        · cases mem_overwrite_remove hrm
        · cases List.mem_singleton.mp hcr
      · exact (ih rest hrec hin).imp fun x hx => ⟨.tail _ hx.1, hx.2⟩

lemma createLinksOps_symlink_mem (destDir : String) (overwrite : Bool)
    (links : List DeferredLink) (lops : List FSOp)
    (h : createLinksOps destDir overwrite links = .ok lops)
    (old new : String) (hmem : FSOp.symlink old new ∈ lops) :
    ∃ l ∈ links, l.linkType = .symlink ∧ old = l.oldName ∧ new = l.newName := by
  induction links generalizing lops with
  | nil =>
    simp only [createLinksOps, Except.ok.injEq] at h
    subst h; cases hmem
  | cons l ls ih =>
    cases hlt : l.linkType <;> simp only [createLinksOps, hlt] at h
    case reg | dir | xGlobalHeader | unsupported => cases h
    case symlink =>
      rcases hrec : createLinksOps destDir overwrite ls with e | rest <;> rw [hrec] at h
      · cases h
      obtain rfl := (Except.ok.injEq ..).mp h
      rcases List.mem_cons.mp hmem with heq | hmem'
      · cases heq
      rcases List.mem_append.mp hmem' with hin | hin
      · rcases List.mem_append.mp hin with hrm | hcr
        · cases mem_overwrite_remove hrm
        · obtain ⟨rfl, rfl⟩ := (FSOp.symlink.injEq ..).mp (List.mem_singleton.mp hcr).symm
          exact ⟨l, List.mem_cons_self .., hlt, rfl, rfl⟩
      · exact (ih rest hrec hin).imp fun x hx => ⟨.tail _ hx.1, hx.2⟩
    case hardlink =>
      rcases hrec : createLinksOps destDir overwrite ls with e | rest <;> rw [hrec] at h
      · cases h
      obtain rfl := (Except.ok.injEq ..).mp h
      rcases List.mem_cons.mp hmem with heq | hmem'
      · cases heq
      rcases List.mem_append.mp hmem' with hin | hin
      · rcases List.mem_append.mp hin with hrm | hcr
        · cases mem_overwrite_remove hrm
        · cases List.mem_singleton.mp hcr
      · exact (ih rest hrec hin).imp fun x hx => ⟨.tail _ hx.1, hx.2⟩

lemma createLinksOps_remove_before_create (destDir : String)
    (links : List DeferredLink) (lops : List FSOp)
    (h : createLinksOps destDir true links = .ok lops)
    (l : DeferredLink) (hl : l ∈ links) :
    List.Sublist [FSOp.remove l.newName, creationOf destDir l] lops := by
  induction links generalizing lops with
  | nil => cases hl
  | cons l' ls ih =>
    cases hlt : l'.linkType <;> simp only [createLinksOps, hlt] at h
    case reg | dir | xGlobalHeader | unsupported => cases h
    case hardlink =>
      rcases hrec : createLinksOps destDir true ls with e | rest <;> rw [hrec] at h
      · cases h
      obtain rfl := (Except.ok.injEq ..).mp h
      rcases List.mem_cons.mp hl with rfl | hl'
      · simp only [createHardLinkOps, if_pos rfl, creationOf, hlt]
        exact .cons _ (.cons₂ _ (.cons₂ _ (List.nil_sublist rest)))
      · exact ((ih rest hrec hl').trans (List.sublist_append_right _ _)).cons _
    case symlink =>
      rcases hrec : createLinksOps destDir true ls with e | rest <;> rw [hrec] at h
      · cases h
      obtain rfl := (Except.ok.injEq ..).mp h
      rcases List.mem_cons.mp hl with rfl | hl'
      · simp only [createSymlinkOps, if_pos rfl, creationOf, hlt]
        exact .cons _ (.cons₂ _ (.cons₂ _ (List.nil_sublist rest)))
      · exact ((ih rest hrec hl').trans (List.sublist_append_right _ _)).cons _

lemma mem_deferredLinks {destDir : String} {l : DeferredLink} {entries : List Header}
    (h : l ∈ deferredLinks destDir entries) :
    ∃ e ∈ entries, l = ⟨e.typeflag, e.linkname, goJoin destDir e.name⟩ := by
  obtain ⟨e, he, rfl⟩ := List.mem_map.mp h
  exact ⟨e, (List.mem_filter.mp he).1, rfl⟩

lemma tarFile_ok_decomp (cwd destDir : String) (overwrite : Bool)
    (entries : List Header) (padding : List UInt8) (ops : List FSOp)
    (h : tarFile cwd destDir overwrite entries padding = .ok ops) :
    ∃ eops lops,
      processEntries cwd destDir overwrite entries = (eops, deferredLinks destDir entries, none)
      ∧ createLinksOps destDir overwrite (deferredLinks destDir entries) = .ok lops
      ∧ checkPadding padding = .ok ()
      ∧ ops = eops ++ lops := by
  unfold tarFile at h
  split at h
  · cases h
  rename_i eops links hpe
  split at h
  · cases h
  rename_i lops hcl
  split at h
  · cases h
  rename_i u hcp
  obtain rfl := (Except.ok.injEq ..).mp h
  obtain ⟨rfl, -⟩ := processEntries_none cwd destDir overwrite entries eops links hpe
  cases u
  exact ⟨eops, lops, hpe, hcl, hcp, rfl⟩

/-- C1: refuted as stated; the code contains a zip-slip guard bug.  The
guard compares the absolute target against the absolute destination with
a bare string prefix check, without appending a separator (the spec
itself demands abs dest plus separator).  An entry named ../dstevil
extracted to destination /tmp/dst therefore passes the guard and TarFile
creates /tmp/dstevil, a filesystem entry outside the destination — so it
is not true that every entry resolving outside the destination aborts
with the zip-slip error and creates nothing.  The plain traversal entry
../evil is still rejected. -/
theorem tarFile_zipSlip_prefix_escape :
    tarFile "/w" "/tmp/dst" false [⟨"../dstevil", .reg, 0o644, "", [65]⟩] [] =
      .ok [.mkdirAll "/tmp" 0o755, .createFile "/tmp/dstevil" 0o644 false [65]]
    ∧ underDir "/tmp/dst" "/tmp/dstevil" = false
    ∧ guardAgainstZipSlip "/w" "../evil" "/tmp/dst" =
        .error (.zipSlip "/tmp/evil" "/tmp/dst") := by
  exact ⟨rfl, by decide, rfl⟩

/-- C5: TarFile reads all bytes remaining on the raw reader past the tar
EOF marker (the padding argument of the model) and succeeds only when all
of them are null; any non-null byte makes extraction return an error. -/
theorem tarFile_ok_padding_all_null (cwd destDir : String) (overwrite : Bool)
    (entries : List Header) (padding : List UInt8) (ops : List FSOp)
    (h : tarFile cwd destDir overwrite entries padding = .ok ops) :
    padding.all (· == 0) = true := by
  obtain ⟨eops, lops, -, -, hcp, -⟩ :=
    tarFile_ok_decomp cwd destDir overwrite entries padding ops h
  exact checkPadding_ok_all_null padding hcp

/-- Witness for the padding theorem at a concrete archive. -/
theorem tarFile_ok_padding_all_null_witness :
    List.all [(0 : UInt8), 0, 0] (· == 0) = true :=
  tarFile_ok_padding_all_null "/w" "/tmp/dst" false [] [0, 0, 0] [] rfl

/-- C6: TarFile defers every symlink and hardlink entry to the queue of
deferred links (in encounter order) and creates them only after the tar
stream is parsed: the operation trace splits into entry operations, none
of which creates a link, followed by the operations of createLinks run on
the deferred queue.  Every hardlink created resolves its old name
relative to the destination directory, every symlink keeps its old name
verbatim, and under overwrite the removal of the link path precedes its
creation. -/
theorem tarFile_defers_links (cwd destDir : String) (overwrite : Bool)
    (entries : List Header) (padding : List UInt8) (ops : List FSOp)
    (h : tarFile cwd destDir overwrite entries padding = .ok ops) :
    ∃ eops lops, ops = eops ++ lops
      ∧ (∀ op ∈ eops, isLinkCreation op = false)
      ∧ createLinksOps destDir overwrite (deferredLinks destDir entries) = .ok lops
      ∧ (∀ old new, FSOp.hardlink old new ∈ lops →
          ∃ l ∈ deferredLinks destDir entries,
            l.linkType = .hardlink ∧ old = goJoin destDir l.oldName ∧ new = l.newName)
      ∧ (∀ old new, FSOp.symlink old new ∈ lops →
          ∃ l ∈ deferredLinks destDir entries,
            l.linkType = .symlink ∧ old = l.oldName ∧ new = l.newName)
      ∧ (overwrite = true → ∀ l ∈ deferredLinks destDir entries,
          List.Sublist [FSOp.remove l.newName, creationOf destDir l] lops) := by
  obtain ⟨eops, lops, hpe, hcl, -, rfl⟩ :=
    tarFile_ok_decomp cwd destDir overwrite entries padding ops h
  refine ⟨eops, lops, rfl,
    (processEntries_none cwd destDir overwrite entries eops _ hpe).2, hcl,
    fun old new hm => createLinksOps_hardlink_mem destDir overwrite _ lops hcl old new hm,
    fun old new hm => createLinksOps_symlink_mem destDir overwrite _ lops hcl old new hm,
    fun ho l hl => createLinksOps_remove_before_create destDir _ lops (ho ▸ hcl) l hl⟩

/-- Witness for the deferred-link theorem on a concrete archive with one
hardlink and one symlink under overwrite. -/
theorem tarFile_defers_links_witness :
    ∃ eops lops,
      ([FSOp.mkdirAll "/tmp/dst" 0o755, FSOp.mkdirAll "/tmp/dst" 0o755,
        FSOp.mkdirAll "/tmp/dst" 0o755, FSOp.remove "/tmp/dst/hl",
        FSOp.hardlink "/tmp/dst/orig" "/tmp/dst/hl", FSOp.mkdirAll "/tmp/dst" 0o755,
        FSOp.remove "/tmp/dst/sl", FSOp.symlink "../t" "/tmp/dst/sl"] : List FSOp) =
        eops ++ lops
      ∧ (∀ op ∈ eops, isLinkCreation op = false)
      ∧ createLinksOps "/tmp/dst" true
          (deferredLinks "/tmp/dst"
            [⟨"hl", .hardlink, 0, "orig", []⟩, ⟨"sl", .symlink, 0, "../t", []⟩]) = .ok lops
      ∧ (∀ old new, FSOp.hardlink old new ∈ lops →
          ∃ l ∈ deferredLinks "/tmp/dst"
              [⟨"hl", .hardlink, 0, "orig", []⟩, ⟨"sl", .symlink, 0, "../t", []⟩],
            l.linkType = .hardlink ∧ old = goJoin "/tmp/dst" l.oldName ∧ new = l.newName)
      ∧ (∀ old new, FSOp.symlink old new ∈ lops →
          ∃ l ∈ deferredLinks "/tmp/dst"
              [⟨"hl", .hardlink, 0, "orig", []⟩, ⟨"sl", .symlink, 0, "../t", []⟩],
            l.linkType = .symlink ∧ old = l.oldName ∧ new = l.newName)
      ∧ (true = true → ∀ l ∈ deferredLinks "/tmp/dst"
              [⟨"hl", .hardlink, 0, "orig", []⟩, ⟨"sl", .symlink, 0, "../t", []⟩],
          List.Sublist [FSOp.remove l.newName, creationOf "/tmp/dst" l]
            lops) :=
  tarFile_defers_links "/w" "/tmp/dst" true
    [⟨"hl", .hardlink, 0, "orig", []⟩, ⟨"sl", .symlink, 0, "../t", []⟩] [0]
    _ rfl

/-- C7: refuted as stated; the code casts the tar header mode directly to
an os.FileMode and then masks os.ModeSetuid, os.ModeSetgid and
os.ModeSticky, which live in bits 23, 22 and 20 — but a tar header
carries setuid, setgid and sticky in bits 11, 10 and 9 (octal 4000, 2000,
1000), so the mask never clears them.  For header mode octal 4755 the
value used when creating the file still equals octal 4755 rather than
octal 755 as the specification requires. -/
theorem cleanFileMode_keeps_tar_setuid :
    cleanFileMode (fileModeOfHeaderMode 0o4755) = 0o4755
    ∧ specCleanHeaderMode 0o4755 = 0o755
    ∧ cleanFileMode (fileModeOfHeaderMode 0o4755) ≠ specCleanHeaderMode 0o4755
    ∧ tarFile "/w" "/tmp/dst" false [⟨"f", .reg, 0o4755, "", []⟩] [] =
        .ok [.mkdirAll "/tmp/dst" 0o755, .createFile "/tmp/dst/f" 0o4755 false []] := by
  exact ⟨by decide, by decide, by decide, rfl⟩

/-- C10: TarFile never validates link targets: in every successful
extraction each symlink operation takes its target verbatim from the
entry's linkname, and there is an archive whose extraction succeeds while
creating a symlink whose target lies outside the destination directory
(only the entry's own name passes the zip-slip guard). -/
theorem tarFile_symlink_target_unchecked :
    (∀ cwd destDir overwrite entries padding ops old new,
        tarFile cwd destDir overwrite entries padding = .ok ops →
        FSOp.symlink old new ∈ ops →
        ∃ e ∈ entries, e.typeflag = TypeFlag.symlink ∧ old = e.linkname)
    ∧ tarFile "/w" "/tmp/dst" false [⟨"lnk", .symlink, 0o777, "/outside/secret", []⟩] [] =
        .ok [.mkdirAll "/tmp/dst" 0o755, .mkdirAll "/tmp/dst" 0o755,
             .symlink "/outside/secret" "/tmp/dst/lnk"]
    ∧ underDir "/tmp/dst" "/outside/secret" = false := by
  refine ⟨?_, rfl, by decide⟩
  intro cwd destDir overwrite entries padding ops old new h hmem
  obtain ⟨eops, lops, hpe, hcl, -, rfl⟩ :=
    tarFile_ok_decomp cwd destDir overwrite entries padding ops h
  rcases List.mem_append.mp hmem with hin | hin
  · have := (processEntries_none cwd destDir overwrite entries eops _ hpe).2 _ hin
    simp [isLinkCreation] at this
  · obtain ⟨l, hl, hlt, rfl, -⟩ :=
      createLinksOps_symlink_mem destDir overwrite _ lops hcl old new hin
    obtain ⟨e, he, rfl⟩ := mem_deferredLinks hl
    exact ⟨e, he, hlt, rfl⟩

/-- Witness for the symlink-verbatim theorem at the concrete archive of
its second conjunct. -/
theorem tarFile_symlink_target_unchecked_witness :
    ∃ e ∈ [(⟨"lnk", .symlink, 0o777, "/outside/secret", []⟩ : Header)],
      e.typeflag = TypeFlag.symlink ∧ "/outside/secret" = e.linkname :=
  tarFile_symlink_target_unchecked.1 "/w" "/tmp/dst" false
    [⟨"lnk", .symlink, 0o777, "/outside/secret", []⟩] []
    [.mkdirAll "/tmp/dst" 0o755, .mkdirAll "/tmp/dst" 0o755,
     .symlink "/outside/secret" "/tmp/dst/lnk"] "/outside/secret" "/tmp/dst/lnk"
    rfl (by decide)

/-! ## Manifest parser model (cmd/multifile/manifest.go)

parseManifest is modelled over the list of input lines.  The filesystem
check of EnsureDestinationNotExist is parameterised by the force flag and
an existence oracle, and URL validity (net/url.Parse) by a validity
oracle, since both depend on ambient state the parser merely consults.
The configured output consumer is passed explicitly; the source reads it
from the process-wide configuration and skips all destination tracking
when it equals the null consumer. -/

lemma parseManifestLoop_ok_seen (consumer : String) (force : Bool)
    (validURL exists_ : String → Bool) (hc : consumer ≠ consumerNull) :
    ∀ lines seen acc res,
      parseManifestLoop consumer force validURL exists_ lines seen acc = .ok res →
      ∀ l ∈ lines, ∀ u d, parseLine (goTrimSpace l) = .ok (u, d) →
        ∀ u', seen.lookup d = some u' → u = u' := by
  intro lines
  induction lines with
  | nil => intro seen acc res _ l hl; cases hl
  | cons line rest ih =>
    intro seen acc res hok l hl u d hpl u' hlook
    rw [parseManifestLoop] at hok
    by_cases hblank : goTrimSpace line = ""
    · rw [if_pos hblank] at hok
      rcases List.mem_cons.mp hl with rfl | hl'
      · rw [hblank] at hpl
        simp [parseLine, goFields, splitOnChar] at hpl
      · exact ih seen acc res hok l hl' u d hpl u' hlook
    rw [if_neg hblank] at hok
    split at hok
    · cases hok
    rename_i u0 d0 hp
    split at hok
    · cases hok
    split at hok
    · -- dupe
      rename_i hseen
      rcases List.mem_cons.mp hl with rfl | hl'
      · rw [hp] at hpl
        simp only [Except.ok.injEq, Prod.mk.injEq] at hpl
        obtain ⟨rfl, rfl⟩ := hpl
        simp only [checkSeenDestinations, hlook] at hseen
        split at hseen
        · rename_i heq
          exact heq.symm
        · cases hseen
      · exact ih seen acc res hok l hl' u d hpl u' hlook
    · -- conflict
      cases hok
    · -- fresh
      rename_i hseen
      split at hok
      · cases hok
      rcases List.mem_cons.mp hl with rfl | hl'
      · rw [hp] at hpl
        simp only [Except.ok.injEq, Prod.mk.injEq] at hpl
        obtain ⟨rfl, rfl⟩ := hpl
        simp only [checkSeenDestinations, hlook] at hseen
        split at hseen <;> cases hseen
      · refine ih _ _ res hok l hl' u d hpl u' ?_
        have hd : d ≠ d0 := by
          intro h'
          subst h'
          simp only [checkSeenDestinations, hlook] at hseen
          split at hseen <;> cases hseen
        have hbe : (d == d0) = false := beq_eq_false_iff_ne.mpr hd
        simp only [List.lookup, hbe]
        exact hlook

lemma parseManifestLoop_ok_pairwise (consumer : String) (force : Bool)
    (validURL exists_ : String → Bool) (hc : consumer ≠ consumerNull) :
    ∀ lines seen acc res,
      parseManifestLoop consumer force validURL exists_ lines seen acc = .ok res →
      List.Pairwise (fun la lb => ∀ u1 d1 u2 d2,
        parseLine (goTrimSpace la) = .ok (u1, d1) →
        parseLine (goTrimSpace lb) = .ok (u2, d2) → d1 = d2 → u1 = u2) lines := by
  intro lines
  induction lines with
  | nil => intro seen acc res _; exact .nil
  | cons line rest ih =>
    intro seen acc res hok
    rw [parseManifestLoop] at hok
    by_cases hblank : goTrimSpace line = ""
    · rw [if_pos hblank] at hok
      refine List.Pairwise.cons ?_ (ih seen acc res hok)
      intro lb _ u1 d1 u2 d2 hp1 _ _
      rw [hblank] at hp1
      simp [parseLine, goFields, splitOnChar] at hp1
    rw [if_neg hblank] at hok
    split at hok
    · cases hok
    rename_i u0 d0 hp
    split at hok
    · cases hok
    split at hok
    · -- dupe
      rename_i hseen
      refine List.Pairwise.cons ?_ (ih seen acc res hok)
      intro lb hlb u1 d1 u2 d2 hp1 hp2 hd12
      rw [hp] at hp1
      simp only [Except.ok.injEq, Prod.mk.injEq] at hp1
      obtain ⟨rfl, rfl⟩ := hp1
      subst hd12
      rcases hlook : seen.lookup d0 with _ | su'
      · simp only [checkSeenDestinations, hlook] at hseen
        cases hseen
      simp only [checkSeenDestinations, hlook] at hseen
      split at hseen
      · rename_i heq
        have := parseManifestLoop_ok_seen consumer force validURL exists_ hc rest _ _ res hok
          lb hlb u2 d0 hp2 su' hlook
        rw [this, heq]
      · cases hseen
    · -- conflict
      cases hok
    · -- fresh
      rename_i hseen
      split at hok
      · cases hok
      refine List.Pairwise.cons ?_ (ih _ _ res hok)
      intro lb hlb u1 d1 u2 d2 hp1 hp2 hd12
      rw [hp] at hp1
      simp only [Except.ok.injEq, Prod.mk.injEq] at hp1
      obtain ⟨rfl, rfl⟩ := hp1
      subst hd12
      have := parseManifestLoop_ok_seen consumer force validURL exists_ hc rest _ _ res hok
        lb hlb u2 d0 hp2 u0
      exact (this (by simp [List.lookup])).symm

lemma parseManifestLoop_ok_nodup (consumer : String) (force : Bool)
    (validURL exists_ : String → Bool) (hc : consumer ≠ consumerNull) :
    ∀ lines seen acc res,
      parseManifestLoop consumer force validURL exists_ lines seen acc = .ok res →
      (acc.map (·.dest)).Nodup →
      (∀ entry ∈ acc, (seen.lookup entry.dest).isSome) →
      (res.map (·.dest)).Nodup := by
  intro lines
  induction lines with
  | nil =>
    intro seen acc res hok hnd _
    rw [parseManifestLoop] at hok
    obtain rfl := (Except.ok.injEq ..).mp hok
    exact hnd
  | cons line rest ih =>
    intro seen acc res hok hnd hacc
    rw [parseManifestLoop] at hok
    by_cases hblank : goTrimSpace line = ""
    · rw [if_pos hblank] at hok
      exact ih seen acc res hok hnd hacc
    rw [if_neg hblank] at hok
    split at hok
    · cases hok
    rename_i u0 d0 hp
    split at hok
    · cases hok
    split at hok
    · -- dupe
      exact ih seen acc res hok hnd hacc
    · -- conflict
      cases hok
    · -- fresh
      rename_i hseen
      split at hok
      · cases hok
      have hfresh : seen.lookup d0 = none := by
        rcases hlook : seen.lookup d0 with _ | su'
        · rfl
        simp only [checkSeenDestinations, hlook] at hseen
        split at hseen <;> cases hseen
      refine ih _ _ res hok ?_ ?_
      · rw [List.map_append]
        refine List.Nodup.append hnd (by simp) ?_
        intro x hx hx'
        simp only [List.map_cons, List.map_nil, List.mem_singleton] at hx'
        subst hx'
        obtain ⟨entry, hentry, hdx⟩ := List.mem_map.mp hx
        have := hacc entry hentry
        rw [hdx, hfresh] at this
        simp at this
      · intro entry hentry
        rcases List.mem_append.mp hentry with hin | hin
        · have := hacc entry hin
          by_cases hd : entry.dest = d0
          · simp [List.lookup, hd]
          · have hbe : (entry.dest == d0) = false := beq_eq_false_iff_ne.mpr hd
            simp only [List.lookup, hbe]
            exact this
        · simp only [List.mem_singleton] at hin
          subst hin
          simp [List.lookup]

/-- C8: corrected.  The destination bookkeeping only runs when the
configured output consumer is not the null consumer; otherwise duplicate
pairs are kept and conflicting destinations raise no error.  Under a
non-null consumer the claim holds: the returned manifest has pairwise
distinct destinations (an exact duplicate line is skipped with a warning
and adds no entry), and a manifest containing two lines with the same
destination but different URLs makes parseManifest return an error. -/
theorem parseManifest_dedup_and_conflict (consumer : String) (force : Bool)
    (validURL exists_ : String → Bool) (lines : List String)
    (hc : consumer ≠ consumerNull) :
    (∀ res, parseManifest consumer force validURL exists_ lines = .ok res →
      (res.map (·.dest)).Nodup)
    ∧ (∀ pre l1 mid l2 post u1 u2 d, lines = pre ++ l1 :: (mid ++ l2 :: post) →
        parseLine (goTrimSpace l1) = .ok (u1, d) →
        parseLine (goTrimSpace l2) = .ok (u2, d) → u1 ≠ u2 →
        ∃ e, parseManifest consumer force validURL exists_ lines = .error e) := by
  constructor
  · intro res hok
    exact parseManifestLoop_ok_nodup consumer force validURL exists_ hc lines [] [] res hok
      (by simp) (by simp)
  · intro pre l1 mid l2 post u1 u2 d hdec hp1 hp2 hne
    rcases hres : parseManifest consumer force validURL exists_ lines with e | res
    · exact ⟨e, rfl⟩
    exfalso
    have hpw := parseManifestLoop_ok_pairwise consumer force validURL exists_ hc lines [] []
      res hres
    have hsub : List.Sublist [l1, l2] lines := by
      rw [hdec]
      refine List.Sublist.trans ?_ (List.sublist_append_right pre _)
      refine List.Sublist.cons₂ _ ?_
      refine List.Sublist.trans ?_ (List.sublist_append_right mid _)
      exact List.Sublist.cons₂ _ (List.nil_sublist post)
    have := ((List.pairwise_cons.mp (hpw.sublist hsub)).1 l2 (by simp)) u1 d u2 d hp1 hp2 rfl
    exact hne this

/-- Witness for the manifest theorem: a file consumer, one duplicated
line plus a fresh one dedupe to distinct destinations, and a conflicting
pair yields an error. -/
theorem parseManifest_dedup_and_conflict_witness :
    (([⟨"http://a", "x"⟩, ⟨"http://b", "y"⟩] : List ManifestEntry).map (·.dest)).Nodup
    ∧ ∃ e, parseManifest "file" false (fun _ => true) (fun _ => false)
        ["http://a x", "http://b x"] = .error e :=
  ⟨(parseManifest_dedup_and_conflict "file" false (fun _ => true) (fun _ => false)
      ["http://a x", "http://a x", "http://b y"] (by decide)).1
      [⟨"http://a", "x"⟩, ⟨"http://b", "y"⟩] rfl,
   (parseManifest_dedup_and_conflict "file" false (fun _ => true) (fun _ => false)
      ["http://a x", "http://b x"] (by decide)).2
      [] "http://a x" [] "http://b x" [] "http://a" "http://b" "x" rfl rfl rfl
      (by decide)⟩

/-- C8 counterexample to the claim as stated: under the null consumer the
very same duplicated line is appended twice and no deduplication or
conflict detection happens at all. -/
theorem parseManifest_null_consumer_keeps_duplicates :
    parseManifest consumerNull false (fun _ => true) (fun _ => false)
      ["http://u a", "http://u a"] =
      .ok [⟨"http://u", "a"⟩, ⟨"http://u", "a"⟩] := rfl

/-! ### SRV cache-host ordering (src/pkg/cli/common.go) -/

lemma highestIndexLoop_ok (srvs : List SRV)
    (h : ∀ srv ∈ srvs, cacheIndexOk srv = true) :
    ∀ hi, highestIndexLoop srvs hi =
      .ok (srvs.foldl (fun a s => max a (cacheIndexOf s)) hi) := by
  induction srvs with
  | nil => intro hi; rfl
  | cons srv rest ih =>
    intro hi
    have hsrv := h srv (List.mem_cons_self ..)
    unfold cacheIndexOk at hsrv
    rw [highestIndexLoop]
    split
    · rename_i e hci; rw [hci] at hsrv; cases hsrv
    rename_i ci hci
    rw [ih (fun s hs => h s (List.mem_cons_of_mem _ hs))]
    have hval : cacheIndexOf srv = ci := by unfold cacheIndexOf; rw [hci]
    have harg : (if ci > hi then ci else hi) = max hi (cacheIndexOf srv) := by
      rw [hval, Nat.max_def]
      split <;> split <;> omega
    rw [List.foldl_cons, harg]

lemma fillLoop_ok (srvs : List SRV)
    (h : ∀ srv ∈ srvs, cacheIndexOk srv = true) :
    ∀ out, fillLoop srvs out =
      .ok (srvs.foldl (fun o s => o.set (cacheIndexOf s) (srvHostname s)) out) := by
  induction srvs with
  | nil => intro out; rfl
  | cons srv rest ih =>
    intro out
    have hsrv := h srv (List.mem_cons_self ..)
    unfold cacheIndexOk at hsrv
    rw [fillLoop]
    split
    · rename_i e hci; rw [hci] at hsrv; cases hsrv
    rename_i ci hci
    rw [ih (fun s hs => h s (List.mem_cons_of_mem _ hs))]
    have hval : cacheIndexOf srv = ci := by unfold cacheIndexOf; rw [hci]
    have harg : out.set ci (srvHostname srv)
        = out.set (cacheIndexOf srv) (srvHostname srv) := by
      rw [hval]
    rw [List.foldl_cons, harg]

lemma fillFold_length (srvs : List SRV) :
    ∀ out : List String,
      (srvs.foldl (fun o s => o.set (cacheIndexOf s) (srvHostname s)) out).length
        = out.length := by
  induction srvs with
  | nil => intro out; rfl
  | cons srv rest ih =>
    intro out
    rw [List.foldl_cons, ih, List.length_set]

lemma fillFold_getD (srvs : List SRV) :
    ∀ (out : List String) (i : Nat), i < out.length →
      (srvs.foldl (fun o s => o.set (cacheIndexOf s) (srvHostname s)) out).getD i ""
        = ((srvs.filter (fun s => cacheIndexOf s = i)).map srvHostname).getLastD
            (out.getD i "") := by
  induction srvs with
  | nil => intro out i _; rfl
  | cons srv rest ih =>
    intro out i hi
    rw [List.foldl_cons]
    rw [ih (out.set (cacheIndexOf srv) (srvHostname srv)) i (by simpa using hi)]
    by_cases hidx : cacheIndexOf srv = i
    · subst hidx
      rw [List.filter_cons_of_pos (by simp)]
      rw [List.map_cons, List.getLastD_cons]
      have : (out.set (cacheIndexOf srv) (srvHostname srv)).getD (cacheIndexOf srv) ""
          = srvHostname srv := by
        simp [List.getD, List.getElem?_set_self, hi]
      rw [this]
    · rw [List.filter_cons_of_neg (by simp [hidx])]
      have : (out.set (cacheIndexOf srv) (srvHostname srv)).getD i "" = out.getD i "" := by
        simp [List.getD, List.getElem?_set_ne hidx]
      rw [this]

lemma highestIndexLoop_error (srvs : List SRV)
    (h : ∃ srv ∈ srvs, cacheIndexOk srv = false) :
    ∀ hi, ∃ e, highestIndexLoop srvs hi = .error e := by
  induction srvs with
  | nil => obtain ⟨srv, hmem, _⟩ := h; cases hmem
  | cons srv rest ih =>
    intro hi
    rw [highestIndexLoop]
    rcases hci : cacheIndexFor srv.target with e | ci
    · exact ⟨e, rfl⟩
    obtain ⟨s, hmem, hbad⟩ := h
    rcases List.mem_cons.mp hmem with rfl | hmem'
    · unfold cacheIndexOk at hbad; rw [hci] at hbad; cases hbad
    · exact ih ⟨s, hmem', hbad⟩ _

/-- C9: corrected.  When every SRV target parses under
`^[a-z0-9-]*-([0-9]+)[.]` with the captured index within strconv.Atoi's
64-bit int range, orderCacheHosts returns a dense array of length
(highest captured index)+1 whose entry at each captured index is the
hostname of the last record with that index and is the empty string at
unassigned indices; when any target fails to parse — no regexp match, or
a captured index beyond the Atoi range — it returns an error.  (The
claim as stated promises the dense array for every pattern-matching
target; a matching target whose index overflows 64-bit int instead makes
orderCacheHosts error, see the counterexample.) -/
theorem orderCacheHosts_dense (srvs : List SRV) :
    ((∀ srv ∈ srvs, cacheIndexOk srv = true) →
      ∃ out, orderCacheHosts srvs = .ok out ∧
        out.length = srvs.foldl (fun a s => max a (cacheIndexOf s)) 0 + 1 ∧
        ∀ i, i < out.length →
          out.getD i ""
            = ((srvs.filter (fun s => cacheIndexOf s = i)).map srvHostname).getLastD "")
    ∧ ((∃ srv ∈ srvs, cacheIndexOk srv = false) →
        ∃ e, orderCacheHosts srvs = .error e) := by
  constructor
  · intro h
    refine ⟨srvs.foldl (fun o s => o.set (cacheIndexOf s) (srvHostname s))
        (List.replicate (srvs.foldl (fun a s => max a (cacheIndexOf s)) 0 + 1) ""),
      ?_, ?_, ?_⟩
    · unfold orderCacheHosts
      rw [highestIndexLoop_ok srvs h 0]
      exact fillLoop_ok srvs h _
    · rw [fillFold_length, List.length_replicate]
    · intro i hilen
      rw [fillFold_length, List.length_replicate] at hilen
      rw [fillFold_getD srvs _ i (by simpa using hilen)]
      have : (List.replicate (srvs.foldl (fun a s => max a (cacheIndexOf s)) 0 + 1)
          (α := String) "").getD i "" = "" := by
        simp [List.getD, List.getElem?_replicate, hilen]
      rw [this]
  · intro h
    unfold orderCacheHosts
    obtain ⟨e, he⟩ := highestIndexLoop_error srvs h 0
    exact ⟨e, by rw [he]⟩

/-- Witness for orderCacheHosts: two parsable targets (one on a non-80
port) produce the dense three-slot array, and an unparsable target
produces an error. -/
theorem orderCacheHosts_dense_witness :
    ((∀ srv ∈ ([⟨"cache-host-2.example.com.", 80⟩, ⟨"cache-host-0.example.com.", 8080⟩]
        : List SRV), cacheIndexOk srv = true) →
      ∃ out, orderCacheHosts [⟨"cache-host-2.example.com.", 80⟩,
          ⟨"cache-host-0.example.com.", 8080⟩] = .ok out ∧
        out.length = ([⟨"cache-host-2.example.com.", 80⟩,
            ⟨"cache-host-0.example.com.", 8080⟩] : List SRV).foldl
            (fun a s => max a (cacheIndexOf s)) 0 + 1 ∧
        ∀ i, i < out.length →
          out.getD i ""
            = ((([⟨"cache-host-2.example.com.", 80⟩,
                ⟨"cache-host-0.example.com.", 8080⟩] : List SRV).filter
                (fun s => cacheIndexOf s = i)).map srvHostname).getLastD "") ∧
    (∀ srv ∈ ([⟨"cache-host-2.example.com.", 80⟩,
        ⟨"cache-host-0.example.com.", 8080⟩] : List SRV), cacheIndexOk srv = true) ∧
    (∃ e, orderCacheHosts [⟨"nodigits.example.com.", 80⟩] = .error e) :=
  ⟨(orderCacheHosts_dense _).1,
   by decide,
   (orderCacheHosts_dense [⟨"nodigits.example.com.", 80⟩]).2
     ⟨_, List.mem_cons_self .., by decide⟩⟩

/-! ### Chunk and slice plans (download strategies; modelled from the spec,
the download implementation sources are not in the repository snapshot) -/

lemma le_ceilDiv_mul (a cs : Nat) (hcs : 0 < cs) : a ≤ ceilDiv a cs * cs := by
  unfold ceilDiv
  have hd := Nat.div_add_mod (a + cs - 1) cs
  have hm : (a + cs - 1) % cs < cs := Nat.mod_lt _ hcs
  have h2 : cs * ((a + cs - 1) / cs) = (a + cs - 1) / cs * cs := Nat.mul_comm ..
  omega

lemma join_range_chunks (cs : Nat) (hcs : 0 < cs) :
    ∀ (n : Nat) (data : List Nat), data.length ≤ n * cs →
      ((List.range n).map (fun i => (data.drop (i * cs)).take cs)).flatten = data := by
  intro n
  induction n with
  | zero =>
    intro data h
    have hnil : data = [] := List.eq_nil_of_length_eq_zero (by omega)
    simp [hnil]
  | succ n ih =>
    intro data h
    rw [List.range_succ_eq_map, List.map_cons, List.flatten_cons]
    simp only [Nat.zero_mul, List.drop_zero]
    have hmap : (List.map Nat.succ (List.range n)).map
          (fun i => (data.drop (i * cs)).take cs)
        = (List.range n).map (fun i => ((data.drop cs).drop (i * cs)).take cs) := by
      rw [List.map_map]
      refine List.map_congr_left ?_
      intro i _
      simp only [Function.comp]
      rw [List.drop_drop]
      congr 2
      rw [Nat.succ_mul]
      omega
    rw [hmap, ih (data.drop cs) (by
      rw [List.length_drop]
      have hexp : (n + 1) * cs = n * cs + cs := Nat.succ_mul ..
      omega)]
    exact List.take_append_drop cs data

/-- C2: confirmed (modelled from the spec, the download sources are not
in the snapshot).  For any object data and any positive chunk and slice
sizes, the ordered reader of buffer mode reproduces the object
byte-for-byte, the nested CH slice plan also reproduces it byte-for-byte,
the reader yields exactly file_size bytes, and the chunk offsets are
strictly increasing. -/
theorem fetch_identity (data : List Nat) (chunkSize sliceSize : Nat)
    (hcs : 0 < chunkSize) (hss : 0 < sliceSize) :
    bufferModeFetch data chunkSize = data
    ∧ chModeFetch data sliceSize chunkSize = data
    ∧ (bufferModeFetch data chunkSize).length = data.length
    ∧ (chunkStarts data.length chunkSize).Pairwise (· < ·) := by
  have hbuf : ∀ (d : List Nat) (cs : Nat), 0 < cs → bufferModeFetch d cs = d := by
    intro d cs hc
    unfold bufferModeFetch chunkBuffers
    exact join_range_chunks cs hc _ d (le_ceilDiv_mul d.length cs hc)
  refine ⟨hbuf data chunkSize hcs, ?_, by rw [hbuf data chunkSize hcs], ?_⟩
  · unfold chModeFetch
    have hsl : ∀ s ∈ List.range (ceilDiv data.length sliceSize),
        bufferModeFetch ((data.drop (s * sliceSize)).take sliceSize)
            (min chunkSize sliceSize)
          = (data.drop (s * sliceSize)).take sliceSize := by
      intro s _
      exact hbuf _ _ (by omega)
    rw [List.map_congr_left hsl]
    exact join_range_chunks sliceSize hss _ data (le_ceilDiv_mul data.length sliceSize hss)
  · unfold chunkStarts
    refine List.Pairwise.map _ ?_ (List.pairwise_lt_range _)
    intro a b hab
    exact (Nat.mul_lt_mul_right hcs).mpr hab

/-- Witness for the fetch identity at a 16-byte object, chunk size 4 and
slice size 6. -/
theorem fetch_identity_witness :
    0 < 4 ∧ 0 < 6 ∧
    (bufferModeFetch (List.range 16) 4 = List.range 16
      ∧ chModeFetch (List.range 16) 6 4 = List.range 16
      ∧ (bufferModeFetch (List.range 16) 4).length = (List.range 16).length
      ∧ (chunkStarts (List.range 16).length 4).Pairwise (· < ·)) :=
  ⟨by decide, by decide, fetch_identity (List.range 16) 4 6 (by decide) (by decide)⟩

/-! ### Consistent-hash slice assignment (modelled from the spec §8
reference vectors; the CH implementation sources are not in the
repository snapshot) -/

set_option maxRecDepth 40000 in
/-- C3: confirmed (modelled from the spec, via the hash construction the
§8 reference vectors were generated against).  With slice_size 3, a
16-byte object and the test URL, the slice-to-host assignment reproduces
all eight reference vectors for M = 1..8. -/
theorem chReferenceVectors :
    chHostVector "http://test.replicate.delivery/hello.txt" 3 16 1
        = digitsOfString "0000000000000000"
    ∧ chHostVector "http://test.replicate.delivery/hello.txt" 3 16 2
        = digitsOfString "0001110000001110"
    ∧ chHostVector "http://test.replicate.delivery/hello.txt" 3 16 3
        = digitsOfString "0001110002221110"
    ∧ chHostVector "http://test.replicate.delivery/hello.txt" 3 16 4
        = digitsOfString "0001113333331110"
    ∧ chHostVector "http://test.replicate.delivery/hello.txt" 3 16 5
        = digitsOfString "0001114443331110"
    ∧ chHostVector "http://test.replicate.delivery/hello.txt" 3 16 6
        = digitsOfString "0001114443331115"
    ∧ chHostVector "http://test.replicate.delivery/hello.txt" 3 16 7
        = digitsOfString "0006664443336665"
    ∧ chHostVector "http://test.replicate.delivery/hello.txt" 3 16 8
        = digitsOfString "0006664443336667" := by
  refine ⟨?_, ?_, ?_, ?_, ?_, ?_, ?_, ?_⟩ <;> rfl

/-! ### CH file-level fallback (modelled from the spec; the CH
implementation sources are not in the repository snapshot) -/

/-- C4: confirmed (modelled from the spec).  A retriable/5xx probe
status makes the dispatcher delegate the whole URL to the fallback:
exactly one fallback Fetch of the original URL and no fallback
DoRequest; a non-retriable non-success status (e.g. 404) surfaces
ErrUnexpectedHTTPStatus with no fallback call of either kind. -/
theorem chFileProbe_fallback (s : Nat) (url cacheHost : String) :
    (retriableStatus s = true →
      (chFileProbe s url cacheHost).2 = .ok ()
      ∧ (chFileProbe s url cacheHost).1.count (.fallbackFetch url) = 1
      ∧ (chFileProbe s url cacheHost).1.countP (·.isFallbackFetch) = 1
      ∧ (chFileProbe s url cacheHost).1.countP (·.isFallbackDoRequest) = 0)
    ∧ (retriableStatus s = false → s ≠ 200 → s ≠ 206 →
      (chFileProbe s url cacheHost).2 = .error "ErrUnexpectedHTTPStatus"
      ∧ (chFileProbe s url cacheHost).1.countP (·.isFallbackFetch) = 0
      ∧ (chFileProbe s url cacheHost).1.countP (·.isFallbackDoRequest) = 0) := by
  constructor
  · intro h
    have hns : s ≠ 200 ∧ s ≠ 206 := by
      simp only [retriableStatus, Bool.or_eq_true, Bool.and_eq_true,
        decide_eq_true_eq] at h
      omega
    unfold chFileProbe
    rw [if_neg (by simp [hns.1, hns.2]), if_pos h]
    refine ⟨rfl, ?_, ?_, ?_⟩
    · simp [List.count_cons]
    · simp [List.countP_cons, CHOp.isFallbackFetch]
    · simp [List.countP_cons, CHOp.isFallbackDoRequest]
  · intro h h200 h206
    unfold chFileProbe
    rw [if_neg (by simp [h200, h206]), if_neg (by simp [h])]
    refine ⟨rfl, ?_, ?_⟩
    · simp [List.countP_cons, CHOp.isFallbackFetch]
    · simp [List.countP_cons, CHOp.isFallbackDoRequest]

/-- Witness for the probe fallback at statuses 502 and 404. -/
theorem chFileProbe_fallback_witness :
    (retriableStatus 502 = true ∧
      ((chFileProbe 502 "http://origin/f.txt" "cache-0").2 = .ok ()
        ∧ (chFileProbe 502 "http://origin/f.txt" "cache-0").1.count
            (.fallbackFetch "http://origin/f.txt") = 1
        ∧ (chFileProbe 502 "http://origin/f.txt" "cache-0").1.countP
            (·.isFallbackFetch) = 1
        ∧ (chFileProbe 502 "http://origin/f.txt" "cache-0").1.countP
            (·.isFallbackDoRequest) = 0))
    ∧ (retriableStatus 404 = false ∧
      ((chFileProbe 404 "http://origin/f.txt" "cache-0").2
          = .error "ErrUnexpectedHTTPStatus"
        ∧ (chFileProbe 404 "http://origin/f.txt" "cache-0").1.countP
            (·.isFallbackFetch) = 0
        ∧ (chFileProbe 404 "http://origin/f.txt" "cache-0").1.countP
            (·.isFallbackDoRequest) = 0)) :=
  ⟨⟨by decide,
    (chFileProbe_fallback 502 "http://origin/f.txt" "cache-0").1 (by decide)⟩,
   ⟨by decide,
    (chFileProbe_fallback 404 "http://origin/f.txt" "cache-0").2
      (by decide) (by decide) (by decide)⟩⟩

/-- C9 counterexample to the claim as stated: this SRV target matches
`^[a-z0-9-]*-([0-9]+)[.]` (the capture is the 20-digit run), yet
orderCacheHosts returns an error rather than a dense array, because
strconv.Atoi rejects the captured index, which exceeds the 64-bit int
range, with ErrRange. -/
theorem orderCacheHosts_match_overflow_error :
    findLastDashMatch ("h-99999999999999999999.x." : String).data
        = some ("99999999999999999999" : String).data
    ∧ ∃ e, orderCacheHosts [⟨"h-99999999999999999999.x.", 80⟩] = .error e :=
  ⟨rfl, ⟨"value out of range", rfl⟩⟩

end RPGet
